import Mathlib

/-!
Shallow embedding of `src/code.py` (boing-from-scratch): the chunked
base64 wire protocol (`send`), the palette rotation (`sendPalette`),
the angle update of the main loop, and the main event loop itself.

Buffers are lists of byte values (`List Nat`, each element < 256 where it
matters), colors are `Nat` (24-bit RGB), Python ints are `Int`.
-/

namespace Boing

/-! ### base64 (model of `binascii.b2a_base64`)

`b2a_base64` emits standard base64 with `=` padding and a trailing
newline appended by the caller model (`send` writes one line per chunk).
-/

/-- The 64 characters of the standard base64 alphabet, in value order. -/
def alphabetChars : List Char :=
  ['A', 'B', 'C', 'D', 'E', 'F', 'G', 'H', 'I', 'J', 'K', 'L', 'M',
   'N', 'O', 'P', 'Q', 'R', 'S', 'T', 'U', 'V', 'W', 'X', 'Y', 'Z',
   'a', 'b', 'c', 'd', 'e', 'f', 'g', 'h', 'i', 'j', 'k', 'l', 'm',
   'n', 'o', 'p', 'q', 'r', 's', 't', 'u', 'v', 'w', 'x', 'y', 'z',
   '0', '1', '2', '3', '4', '5', '6', '7', '8', '9', '+', '/']

/-- Character for a 6-bit value. -/
def b64Char (n : Nat) : Char := alphabetChars.getD n 'A'

/-- 6-bit value of a base64 character (64 if not in the alphabet). -/
def b64Val (c : Char) : Nat := alphabetChars.indexOf c

/-- Standard base64 encoding of a byte list (no newline), processing
three bytes into four characters, padding the final group with `=`. -/
def b64encode : List Nat → List Char
  | [] => []
  | [a] => [b64Char (a / 4), b64Char (a % 4 * 16), '=', '=']
  | [a, b] => [b64Char (a / 4), b64Char (a % 4 * 16 + b / 16), b64Char (b % 16 * 4), '=']
  | a :: b :: c :: rest =>
      b64Char (a / 4) :: b64Char (a % 4 * 16 + b / 16) ::
      b64Char (b % 16 * 4 + c / 64) :: b64Char (c % 64) :: b64encode rest

/-- Standard base64 decoding: four characters at a time, honouring `=`
padding; anything malformed decodes to `[]`. -/
def b64decode : List Char → List Nat
  | c1 :: c2 :: c3 :: c4 :: rest =>
      if c3 = '=' then
        [b64Val c1 * 4 + b64Val c2 / 16]
      else if c4 = '=' then
        [b64Val c1 * 4 + b64Val c2 / 16, b64Val c2 % 16 * 16 + b64Val c3 / 4]
      else
        (b64Val c1 * 4 + b64Val c2 / 16) :: (b64Val c2 % 16 * 16 + b64Val c3 / 4) ::
          (b64Val c3 % 4 * 64 + b64Val c4) :: b64decode rest
  | _ => []

/-! ### The chunked wire encoding (model of `send`, src/code.py lines 43-58) -/

/-- `range(0, stop, step)` for positive `step`: the multiples of `step`
below `stop`, in order. -/
def pyRange0 (stop step : Nat) : List Nat :=
  (List.range ((stop + step - 1) / step)).map (fun k => k * step)

/-- Chunk start indices of `send`'s loop: `range(0, len(buf), 60)`
(`stride = 60` in the source). -/
def sendChunkStarts (buf : List Nat) : List Nat := pyRange0 buf.length 60

/-- The slice `buf[i:i+60]` handled by one loop iteration of `send`. -/
def sendChunks (buf : List Nat) : List (List Nat) :=
  (sendChunkStarts buf).map (fun i => (buf.drop i).take 60)

/-- The base64 line written for one chunk (`b2a_base64` appends the
newline itself). -/
def sendChunkLines (buf : List Nat) : List (List Char) :=
  (sendChunks buf).map (fun ch => b64encode ch ++ ['\n'])

/-- Model of `send(buf, tag)`: the list of strings written to the serial
sink, paired with `true` when the call ran to completion.  On an empty
buffer the `for` loop body never runs, so evaluating `i` in the guard
`if i + stride < len(buf)` raises `NameError` after the begin marker and
before the end marker: the flag is `false` and only the begin marker has
been written.  Otherwise the final value of `i` is the last chunk start,
and the guarded extra write happens only if `i + 60 < len(buf)`. -/
def sendWrites (buf : List Nat) (tag : String) : List String × Bool :=
  let beginLine := "\n-----BEGIN " ++ tag ++ "-----\n"
  let endLine := "-----END " ++ tag ++ "-----\n"
  if buf.length = 0 then
    ([beginLine], false)
  else
    let lastI := (sendChunkStarts buf).getLastD 0
    let extra :=
      if lastI + 60 < buf.length then
        [String.mk (b64encode (buf.drop (lastI + 60)) ++ ['\n'])]
      else []
    (beginLine :: ((sendChunkLines buf).map String.mk ++ extra) ++ [endLine], true)

/-- A tolerant reader's view of one chunk line: strip newlines and
base64-decode the rest. -/
def decodeChunkLine (line : List Char) : List Nat :=
  b64decode (line.filter (fun c => c != '\n'))

/-- Successive 60-byte slices of a list: the canonical chunking that
`send`'s loop is claimed to implement. -/
def chunks60 (buf : List Nat) : List (List Nat) :=
  if h : buf = [] then [] else buf.take 60 :: chunks60 (buf.drop 60)
termination_by buf.length
decreasing_by
  simp only [List.length_drop]
  have := List.length_pos.mpr h
  omega

/-! ### Palette rotation (model of `sendPalette`, src/code.py lines 60-75) -/

/-- `list(range(a, b))`. -/
def pyRangeAB (a b : Nat) : List Nat := List.range' a (b - a)

/-- The reordering built by `sendPalette` for a palette of length `n` at
a given angle: `[0,1,2,3] + list(range(4+angle, n)) + list(range(4, 4+angle))`
with `start = 4 + angle`. -/
def paletteOrder (n : Nat) (angle : Nat) : List Nat :=
  [0, 1, 2, 3] ++ pyRangeAB (4 + angle) n ++ pyRangeAB 4 (4 + angle)

/-- The three payload bytes of one color, MSB order: `(c >> 16) & 255`,
`(c >> 8) & 255`, `c & 255`. -/
def rgb3 (c : Nat) : List Nat := [c / 65536 % 256, c / 256 % 256, c % 256]

/-- The payload `sendPalette` assembles: for `i in range(n)` the three
bytes of `pal[order[i]]` are written at offset `3*i`. -/
def paletteData (pal : List Nat) (angle : Nat) : List Nat :=
  ((List.range pal.length).map
    (fun i => rgb3 (pal.getD ((paletteOrder pal.length angle).getD i 0) 0))).flatten

/-- Left rotation of a list by `k` positions (the spec's description of
what the rotating zone undergoes). -/
def rotL (k : Nat) (l : List Nat) : List Nat := l.drop k ++ l.take k

/-! ### Angle update and main event loop (model of `main`, src/code.py lines 114-161) -/

/-- The offset update of the main loop: `angle = (16 + angle + d) & 7`.
Python's `&` on arbitrary-precision two's-complement integers is
`Int.land`. -/
def rotateUpdate (angle d : Int) : Int := Int.land (16 + angle + d) 7

/-- The mutable state of the main loop: frame buffer `buf`, palette
`pal`, rotation `angle`, and the previous button reading. -/
structure LoopState where
  buf : List Nat
  pal : List Nat
  angle : Int
  prevClick : Bool

/-- One iteration of the main event loop on a polled `(click, delta)`
pair: the new state together with the `(tag, buffer)` arguments of the
`send` calls made, in order.  The click branch runs first (frame re-send
on a rising edge `c and c != prevClick`), then `prevClick = c`, then the
rotation branch (`d != 0`: update the angle, send palette then frame).
The palette angle passed to `sendPalette` satisfies its `0..7` assert,
so the call is modelled by `paletteData` at that angle. -/
def loopStep (s : LoopState) (inp : Bool × Int) : LoopState × List (String × List Nat) :=
  let c := inp.1
  let d := inp.2
  let clickOut := if c && (c != s.prevClick) then [("FRAME", s.buf)] else []
  let s1 : LoopState := { s with prevClick := c }
  if d ≠ 0 then
    let a := rotateUpdate s1.angle d
    ({ s1 with angle := a },
      clickOut ++ [("PALETTE", paletteData s1.pal a.toNat), ("FRAME", s1.buf)])
  else
    (s1, clickOut)

/-- The main loop run over a finite input trace: final state plus the
per-tick lists of send calls. -/
def runLoop (s : LoopState) : List (Bool × Int) → LoopState × List (List (String × List Nat))
  | [] => (s, [])
  | inp :: rest =>
      let p := loopStep s inp
      let q := runLoop p.1 rest
      (q.1, p.2 :: q.2)

/-- The state on entry to the event loop: `angle = 0`,
`prevClick = False`, the startup-painted buffer and palette. -/
def initState (buf pal : List Nat) : LoopState :=
  { buf := buf, pal := pal, angle := 0, prevClick := false }

/-- The two unconditional sends made before the event loop:
`sendPalette(pal, angle)` with `angle = 0`, then `send(buf, 'FRAME')`. -/
def startupEmits (buf pal : List Nat) : List (String × List Nat) :=
  [("PALETTE", paletteData pal 0), ("FRAME", buf)]

/-- Every `send` call of the program, in order: the startup sends, then
those of the event-loop ticks. -/
def programEmits (buf pal : List Nat) (inputs : List (Bool × Int)) : List (String × List Nat) :=
  startupEmits buf pal ++ (runLoop (initState buf pal) inputs).2.flatten

/-- A button trace made of press-and-release cycles: each `(m, r)` is
`m` ticks pressed followed by `r` ticks released. -/
def pressTrace (cycles : List (Nat × Nat)) : List Bool :=
  (cycles.map (fun p => List.replicate p.1 true ++ List.replicate p.2 false)).flatten

/-! ### base64 lemmas -/

theorem b64Char_mem (n : Nat) : b64Char n ∈ alphabetChars := by
  by_cases h : n < alphabetChars.length
  · unfold b64Char
    rw [List.getD_eq_getElem?_getD, List.getElem?_eq_getElem h, Option.getD_some]
    exact List.getElem_mem h
  · unfold b64Char
    rw [List.getD_eq_getElem?_getD, List.getElem?_eq_none (Nat.le_of_not_lt h),
      Option.getD_none]
    decide

theorem b64Char_ne_pad (n : Nat) : b64Char n ≠ '=' := by
  have h := b64Char_mem n
  intro he
  rw [he] at h
  revert h; decide

theorem b64Char_ne_newline (n : Nat) : b64Char n ≠ '\n' := by
  have h := b64Char_mem n
  intro he
  rw [he] at h
  revert h; decide

theorem b64Val_b64Char : ∀ n < 64, b64Val (b64Char n) = n := by decide

/-- Every character emitted by the encoder is a base64 alphabet
character or the padding character. -/
theorem b64encode_chars : ∀ (bytes : List Nat), ∀ c ∈ b64encode bytes,
    c ∈ alphabetChars ∨ c = '='
  | [], c, hc => by simp [b64encode] at hc
  | [a], c, hc => by
      simp only [b64encode, List.mem_cons, List.not_mem_nil, or_false] at hc
      rcases hc with h | h | h | h <;> subst h <;>
        first | exact Or.inl (b64Char_mem _) | exact Or.inr rfl
  | [a, b], c, hc => by
      simp only [b64encode, List.mem_cons, List.not_mem_nil, or_false] at hc
      rcases hc with h | h | h | h <;> subst h <;>
        first | exact Or.inl (b64Char_mem _) | exact Or.inr rfl
  | a :: b :: d :: rest, c, hc => by
      simp only [b64encode, List.mem_cons] at hc
      rcases hc with h | h | h | h | h
      · exact h ▸ Or.inl (b64Char_mem _)
      · exact h ▸ Or.inl (b64Char_mem _)
      · exact h ▸ Or.inl (b64Char_mem _)
      · exact h ▸ Or.inl (b64Char_mem _)
      · exact b64encode_chars rest c h

theorem b64encode_no_newline (bytes : List Nat) : ∀ c ∈ b64encode bytes, c ≠ '\n' := by
  intro c hc he
  rcases b64encode_chars bytes c hc with h | h
  · rw [he] at h; revert h; decide
  · rw [he] at h; exact absurd h (by decide)

/-- Round trip: decoding an encoded byte list returns it exactly. -/
theorem b64decode_b64encode : ∀ (bytes : List Nat), (∀ b ∈ bytes, b < 256) →
    b64decode (b64encode bytes) = bytes
  | [], _ => by simp [b64encode, b64decode]
  | [a], h => by
      have ha : a < 256 := h a (by simp)
      have h1 : a / 4 < 64 := by omega
      have h2 : a % 4 * 16 < 64 := by omega
      simp only [b64encode, b64decode, b64Val_b64Char _ h1, b64Val_b64Char _ h2]
      simp only [List.cons.injEq, and_true, reduceIte]
      omega
  | [a, b], h => by
      have ha : a < 256 := h a (by simp)
      have hb : b < 256 := h b (by simp)
      have h1 : a / 4 < 64 := by omega
      have h2 : a % 4 * 16 + b / 16 < 64 := by omega
      have h3 : b % 16 * 4 < 64 := by omega
      have hn : b64Char (b % 16 * 4) ≠ '=' := b64Char_ne_pad _
      simp [b64encode, b64decode, hn, b64Val_b64Char _ h1, b64Val_b64Char _ h2,
        b64Val_b64Char _ h3]
      omega
  | a :: b :: c :: rest, h => by
      have ha : a < 256 := h a (by simp)
      have hb : b < 256 := h b (by simp)
      have hc : c < 256 := h c (by simp)
      have h1 : a / 4 < 64 := by omega
      have h2 : a % 4 * 16 + b / 16 < 64 := by omega
      have h3 : b % 16 * 4 + c / 64 < 64 := by omega
      have h4 : c % 64 < 64 := by omega
      have ih := b64decode_b64encode rest (fun x hx => h x (by simp [hx]))
      have hn3 : b64Char (b % 16 * 4 + c / 64) ≠ '=' := b64Char_ne_pad _
      have hn4 : b64Char (c % 64) ≠ '=' := b64Char_ne_pad _
      simp [b64encode, b64decode, hn3, hn4, b64Val_b64Char _ h1, b64Val_b64Char _ h2,
        b64Val_b64Char _ h3, b64Val_b64Char _ h4, ih]
      omega

/-! ### Chunking lemmas -/

theorem sendChunks_eq_chunks60 (buf : List Nat) : sendChunks buf = chunks60 buf := by
  by_cases h : buf = []
  · subst h
    simp [sendChunks, sendChunkStarts, pyRange0, chunks60]
  · have hlen : 0 < buf.length := List.length_pos.mpr h
    have ih := sendChunks_eq_chunks60 (buf.drop 60)
    rw [chunks60, dif_neg h, ← ih]
    unfold sendChunks sendChunkStarts pyRange0
    have hk : (buf.length + 60 - 1) / 60 = ((buf.drop 60).length + 60 - 1) / 60 + 1 := by
      simp only [List.length_drop]
      omega
    rw [hk, List.range_succ_eq_map]
    simp only [List.map_cons, List.map_map, Nat.zero_mul, List.drop_zero,
      List.cons.injEq, true_and]
    congr 1
    funext j
    simp only [Function.comp]
    rw [List.drop_drop]
    congr 2
    omega
termination_by buf.length
decreasing_by
  simp only [List.length_drop]
  have := List.length_pos.mpr h
  omega

theorem chunks60_flatten (buf : List Nat) : (chunks60 buf).flatten = buf := by
  by_cases h : buf = []
  · subst h
    simp [chunks60]
  · rw [chunks60, dif_neg h, List.flatten_cons, chunks60_flatten (buf.drop 60),
      List.take_append_drop]
termination_by buf.length
decreasing_by
  simp only [List.length_drop]
  have := List.length_pos.mpr h
  omega

theorem chunks60_shape (buf : List Nat) :
    ∀ ch ∈ chunks60 buf, ch ≠ [] ∧ ch.length ≤ 60 := by
  by_cases h : buf = []
  · subst h
    simp [chunks60]
  · rw [chunks60, dif_neg h]
    intro ch hch
    rcases List.mem_cons.mp hch with hc | hc
    · subst hc
      refine ⟨?_, ?_⟩
      · rw [Ne, List.take_eq_nil_iff]
        rintro (h60 | hnil)
        · exact absurd h60 (by decide)
        · exact h hnil
      · simp [List.length_take]
    · exact chunks60_shape (buf.drop 60) ch hc
termination_by buf.length
decreasing_by
  simp only [List.length_drop]
  have := List.length_pos.mpr h
  omega

/-- The final loop index of `send` is the last chunk start, and the
guarded extra write after the loop can never fire: the loop itself
already covered the final (possibly partial) chunk. -/
theorem sendLastI_ge (buf : List Nat) (h : buf ≠ []) :
    buf.length ≤ (sendChunkStarts buf).getLastD 0 + 60 := by
  have hlen : 0 < buf.length := List.length_pos.mpr h
  have hk : (buf.length + 60 - 1) / 60 = ((buf.length + 60 - 1) / 60 - 1) + 1 := by omega
  unfold sendChunkStarts pyRange0
  rw [hk, List.range_succ, List.map_append, List.map_cons, List.map_nil,
    List.getLastD_concat]
  omega

/-- For a non-empty buffer `send` runs to completion and writes exactly:
begin marker, one base64 line per chunk, end marker (the dead extra
write contributes nothing). -/
theorem sendWrites_eq (buf : List Nat) (tag : String) (h : buf ≠ []) :
    sendWrites buf tag =
      (("\n-----BEGIN " ++ tag ++ "-----\n") ::
        (sendChunkLines buf).map String.mk ++ ["-----END " ++ tag ++ "-----\n"], true) := by
  have hlen : buf.length ≠ 0 := fun h0 => h (List.length_eq_zero.mp h0)
  have hge := sendLastI_ge buf h
  have hnot : ¬ ((sendChunkStarts buf).getLastD 0 + 60 < buf.length) := by omega
  simp only [List.getLastD_eq_getLast?] at hge
  simp [sendWrites, hlen, hnot]
  omega

/-! ### The angle update is reduction mod 8 -/

theorem ldiff_seven (m : Nat) : Nat.ldiff 7 m = 7 - m % 8 := by
  have hfin : ∀ r < 8, ∀ k < 3, Nat.testBit (7 - r) k = !(Nat.testBit r k) := by decide
  apply Nat.eq_of_testBit_eq
  intro k
  rw [Nat.testBit_ldiff]
  by_cases hk : k < 3
  · have h7 : Nat.testBit 7 k = true := by interval_cases k <;> decide
    have hmod : Nat.testBit m k = Nat.testBit (m % 8) k := by
      rw [show (8 : Nat) = 2 ^ 3 by norm_num, Nat.testBit_mod_two_pow, decide_eq_true hk,
        Bool.true_and]
    rw [h7, Bool.true_and, hmod]
    exact (hfin (m % 8) (Nat.mod_lt m (by norm_num)) k hk).symm
  · have hklarge : (8 : Nat) ≤ 2 ^ k := by
      calc (8 : Nat) = 2 ^ 3 := by norm_num
      _ ≤ 2 ^ k := Nat.pow_le_pow_right (by norm_num) (by omega)
    have h7 : Nat.testBit 7 k = false := Nat.testBit_lt_two_pow (by omega)
    have hsub : Nat.testBit (7 - m % 8) k = false := Nat.testBit_lt_two_pow (by omega)
    rw [h7, hsub, Bool.false_and]

/-- Python's `x & 7` is `x mod 8`, for negative `x` as well. -/
theorem land_seven_eq_emod (x : Int) : Int.land x 7 = x % 8 := by
  cases x with
  | ofNat m =>
      have h1 : Int.land (Int.ofNat m) 7 = Int.ofNat (m &&& 7) := rfl
      have h2 : m &&& 7 = m % 8 := by
        have := Nat.and_pow_two_sub_one_eq_mod m 3
        norm_num at this
        exact this
      rw [h1, h2]
      simp [Int.ofNat_emod]
  | negSucc m =>
      have h1 : Int.land (Int.negSucc m) 7 = Int.ofNat (Nat.ldiff 7 m) := rfl
      rw [h1, ldiff_seven]
      have hm : m % 8 < 8 := Nat.mod_lt m (by norm_num)
      rw [Int.negSucc_eq, Int.ofNat_eq_coe]
      push_cast [Nat.le_of_lt_succ hm]
      omega

theorem rotateUpdate_eq (o d : Int) : rotateUpdate o d = (o + d + 16) % 8 := by
  unfold rotateUpdate
  rw [land_seven_eq_emod]
  congr 1
  ring

theorem rotateUpdate_nonneg (o d : Int) : 0 ≤ rotateUpdate o d := by
  rw [rotateUpdate_eq]
  exact Int.emod_nonneg _ (by norm_num)

theorem rotateUpdate_lt (o d : Int) : rotateUpdate o d < 8 := by
  rw [rotateUpdate_eq]
  exact Int.emod_lt_of_pos _ (by norm_num)

/-! ### Palette helper lemmas -/

theorem map_range_getD (l : List Nat) (f : Nat → List Nat) :
    (List.range l.length).map (fun i => f (l.getD i 0)) = l.map f := by
  induction l with
  | nil => simp
  | cons a t ih =>
      rw [List.length_cons, List.range_succ_eq_map, List.map_cons, List.map_cons,
        List.map_map]
      refine congrArg₂ _ (by rw [List.getD_cons_zero]) ?_
      calc (List.range t.length).map ((fun i => f ((a :: t).getD i 0)) ∘ Nat.succ)
          = (List.range t.length).map (fun i => f (t.getD i 0)) := by
            apply List.map_congr_left
            intro i _
            simp [Function.comp, List.getD_cons_succ]
        _ = t.map f := ih

theorem paletteData_zero (pal : List Nat) (hl : pal.length = 16) :
    paletteData pal 0 = (pal.map rgb3).flatten := by
  have hord : paletteOrder 16 0 = List.range 16 := by decide
  have key : (List.range 16).map (fun i => rgb3 (pal.getD ((List.range 16).getD i 0) 0))
      = (List.range 16).map (fun i => rgb3 (pal.getD i 0)) := by
    apply List.map_congr_left
    intro i hi
    have hi' : i < 16 := List.mem_range.mp hi
    have : (List.range 16).getD i 0 = i := by
      rw [List.getD_eq_getElem?_getD, List.getElem?_range hi', Option.getD_some]
    rw [this]
  calc paletteData pal 0
      = ((List.range 16).map
          (fun i => rgb3 (pal.getD ((List.range 16).getD i 0) 0))).flatten := by
        unfold paletteData
        rw [hl, hord]
    _ = ((List.range 16).map (fun i => rgb3 (pal.getD i 0))).flatten := by rw [key]
    _ = (pal.map rgb3).flatten := by
        rw [show (16 : Nat) = pal.length from hl.symm, map_range_getD]

/-! ### Event-loop helper lemmas -/

theorem loopStep_buf (s : LoopState) (inp : Bool × Int) :
    (loopStep s inp).1.buf = s.buf ∧ (loopStep s inp).1.pal = s.pal := by
  by_cases hd : inp.2 ≠ 0 <;> simp [loopStep, hd]

theorem loopStep_emits (s : LoopState) (inp : Bool × Int) :
    ∀ e ∈ (loopStep s inp).2, (e.1 = "FRAME" ∧ e.2 = s.buf) ∨ e.1 = "PALETTE" := by
  intro e he
  by_cases hd : inp.2 ≠ 0 <;> by_cases hc : (inp.1 && (inp.1 != s.prevClick)) = true <;>
    simp [loopStep, hd, hc] at he
  · rcases he with rfl | rfl | rfl <;> simp
  · rcases he with rfl | rfl <;> simp
  · subst he
    simp

theorem runLoop_buf (inputs : List (Bool × Int)) :
    ∀ s : LoopState, (runLoop s inputs).1.buf = s.buf ∧ (runLoop s inputs).1.pal = s.pal := by
  induction inputs with
  | nil => intro s; exact ⟨rfl, rfl⟩
  | cons inp rest ih =>
      intro s
      have h1 := loopStep_buf s inp
      have h2 := ih (loopStep s inp).1
      simp only [runLoop]
      exact ⟨h2.1.trans h1.1, h2.2.trans h1.2⟩

theorem runLoop_emits (inputs : List (Bool × Int)) :
    ∀ s : LoopState, ∀ e ∈ (runLoop s inputs).2.flatten,
      (e.1 = "FRAME" ∧ e.2 = s.buf) ∨ e.1 = "PALETTE" := by
  induction inputs with
  | nil => intro s e he; simp [runLoop] at he
  | cons inp rest ih =>
      intro s e he
      simp only [runLoop, List.flatten_cons, List.mem_append] at he
      rcases he with he | he
      · exact loopStep_emits s inp e he
      · rcases ih (loopStep s inp).1 e he with h | h
        · exact Or.inl ⟨h.1, h.2.trans (loopStep_buf s inp).1⟩
        · exact Or.inr h

theorem runLoop_append (l1 l2 : List (Bool × Int)) :
    ∀ s : LoopState, runLoop s (l1 ++ l2) =
      ((runLoop (runLoop s l1).1 l2).1,
        (runLoop s l1).2 ++ (runLoop (runLoop s l1).1 l2).2) := by
  induction l1 with
  | nil => intro s; simp [runLoop]
  | cons a t ih => intro s; simp [runLoop, ih]

theorem runLoop_cons (s : LoopState) (inp : Bool × Int) (rest : List (Bool × Int)) :
    runLoop s (inp :: rest) =
      ((runLoop (loopStep s inp).1 rest).1,
        (loopStep s inp).2 :: (runLoop (loopStep s inp).1 rest).2) := rfl

theorem runLoop_held (k : Nat) :
    ∀ s : LoopState, s.prevClick = true →
      runLoop s (List.replicate k (true, (0 : Int))) = (s, List.replicate k []) := by
  induction k with
  | zero => intro s _; rfl
  | succ n ih =>
      intro s h
      have hstep : loopStep s (true, (0 : Int)) = (s, []) := by
        obtain ⟨sb, sp, sa, spc⟩ := s
        cases h
        simp [loopStep]
      rw [List.replicate_succ, runLoop_cons, hstep]
      dsimp only
      rw [ih s h]
      rfl

theorem runLoop_released (k : Nat) :
    ∀ s : LoopState,
      runLoop s (List.replicate (k + 1) (false, (0 : Int))) =
        ({ s with prevClick := false }, List.replicate (k + 1) []) := by
  induction k with
  | zero =>
      intro s
      have hstep : loopStep s (false, (0 : Int)) = ({ s with prevClick := false }, []) := by
        simp [loopStep]
      rw [List.replicate_succ, List.replicate_zero, runLoop_cons, hstep]
      rfl
  | succ n ih =>
      intro s
      have hstep : loopStep s (false, (0 : Int)) = ({ s with prevClick := false }, []) := by
        simp [loopStep]
      rw [List.replicate_succ, runLoop_cons, hstep]
      dsimp only
      rw [ih { s with prevClick := false }]
      rfl

theorem runLoop_cycle (m r : Nat) (s : LoopState) (h : s.prevClick = false) :
    runLoop s (List.replicate (m + 1) (true, (0 : Int)) ++
        List.replicate (r + 1) (false, (0 : Int))) =
      ({ s with prevClick := false },
        [("FRAME", s.buf)] :: List.replicate (m + r + 1) []) := by
  have hstep : loopStep s (true, (0 : Int)) = ({ s with prevClick := true }, [("FRAME", s.buf)]) := by
    simp [loopStep, h]
  rw [List.replicate_succ, List.cons_append]
  simp only [runLoop, hstep]
  rw [runLoop_append, runLoop_held m { s with prevClick := true } rfl]
  simp only
  rw [runLoop_released r { s with prevClick := true }]
  refine congrArg₂ _ rfl ?_
  simp only [List.cons.injEq, true_and]
  rw [List.append_replicate_replicate]
  exact congrArg₂ _ (by omega) rfl

theorem runLoop_cycles (cycles : List (Nat × Nat)) :
    ∀ s : LoopState, s.prevClick = false →
      (∀ p ∈ cycles, 1 ≤ p.1 ∧ 1 ≤ p.2) →
      runLoop s ((pressTrace cycles).map (fun c => (c, (0 : Int)))) =
        (s, (cycles.map
          (fun p => [("FRAME", s.buf)] :: List.replicate (p.1 - 1 + p.2) [])).flatten) := by
  induction cycles with
  | nil =>
      intro s _ _
      rfl
  | cons p rest ih =>
      intro s h hall
      obtain ⟨m, r⟩ := p
      obtain ⟨hm, hr⟩ := hall (m, r) (List.mem_cons_self _ _)
      obtain ⟨m', rfl⟩ : ∃ m', m = m' + 1 := ⟨m - 1, by omega⟩
      obtain ⟨r', rfl⟩ : ∃ r', r = r' + 1 := ⟨r - 1, by omega⟩
      have hs : ({ s with prevClick := false } : LoopState) = s := by
        obtain ⟨sb, sp, sa, spc⟩ := s
        cases h
        rfl
      rw [pressTrace, List.map_cons, List.flatten_cons, ← pressTrace, List.map_append,
        runLoop_append, List.map_append, List.map_replicate, List.map_replicate]
      rw [runLoop_cycle m' r' s h, hs]
      rw [ih s h (fun q hq => hall q (List.mem_cons_of_mem _ hq))]
      have hcount : (m' + 1) - 1 + (r' + 1) = m' + r' + 1 := by omega
      simp only [List.map_cons, List.flatten_cons, Prod.mk.injEq, true_and, hcount]

/-! ### Claim theorems -/

/-- C1 (counterexample to the claim as stated, which quantifies over
every buffer): on the empty buffer `send` does not complete (the loop
index is unbound) and never writes the end marker, so there is no block
of matching markers whose chunks decode to the buffer. -/
theorem claim_C1_cex : (sendWrites [] "FRAME").2 = false ∧
    "-----END FRAME-----\n" ∉ (sendWrites [] "FRAME").1 := by
  constructor
  · rfl
  · decide

/-- C1 (amended to non-empty buffers): for every non-empty byte buffer,
`send` completes, and base64-decoding every chunk line between the
matching markers and concatenating the decoded bytes in line order
reproduces the buffer exactly — also when the length is not a multiple
of the 60-byte stride: the final partial chunk is still emitted and no
byte is dropped or duplicated. -/
theorem claim_C1_send_lossless (buf : List Nat) (tag : String)
    (h1 : buf ≠ []) (h2 : ∀ b ∈ buf, b < 256) :
    (sendWrites buf tag).2 = true ∧
    ((sendChunkLines buf).map decodeChunkLine).flatten = buf := by
  constructor
  · rw [sendWrites_eq buf tag h1]
  · have hdec : ∀ ch ∈ sendChunks buf,
        decodeChunkLine (b64encode ch ++ ['\n']) = ch := by
      intro ch hch
      have hbytes : ∀ b ∈ ch, b < 256 := by
        rcases List.mem_map.mp hch with ⟨i, hi, rfl⟩
        intro b hb
        exact h2 b (List.mem_of_mem_drop (List.mem_of_mem_take hb))
      unfold decodeChunkLine
      rw [List.filter_append,
        List.filter_eq_self.mpr
          (fun c hc => bne_iff_ne.mpr (b64encode_no_newline ch c hc)),
        show (['\n'].filter (fun c => c != '\n')) = [] from rfl, List.append_nil]
      exact b64decode_b64encode ch hbytes
    have hmap : (sendChunkLines buf).map decodeChunkLine = sendChunks buf := by
      unfold sendChunkLines
      rw [List.map_map]
      have hdec' : ∀ ch ∈ sendChunks buf,
          (decodeChunkLine ∘ fun ch => b64encode ch ++ ['\n']) ch = ch :=
        fun ch hch => hdec ch hch
      rw [List.map_congr_left hdec', List.map_id']
    rw [hmap, sendChunks_eq_chunks60, chunks60_flatten]

/-- Witness for C1 at the concrete buffer `[1, 2]`. -/
theorem claim_C1_send_lossless_witness :
    (([1, 2] : List Nat) ≠ []) ∧
    ((sendChunkLines [1, 2]).map decodeChunkLine).flatten = [1, 2] :=
  ⟨by decide, (claim_C1_send_lossless [1, 2] "FRAME" (by decide) (by decide)).2⟩

/-- C2: for every angle in 0..7 with the 16-color palette,
`sendPalette`'s reordering keeps the anchor indices 0..3 in their
original positions and rotates the zone 4..15 left by the angle; the
anchors also stay at the head after any main-loop offset update, so they
are positionally invariant across arbitrary rotate sequences. -/
theorem claim_C2_palette_rotation (angle : Nat) (h : angle ≤ 7) :
    paletteOrder 16 angle = [0, 1, 2, 3] ++ rotL angle (pyRangeAB 4 16) ∧
    (paletteOrder 16 angle).take 4 = [0, 1, 2, 3] ∧
    ∀ o d : Int, (paletteOrder 16 (rotateUpdate o d).toNat).take 4 = [0, 1, 2, 3] := by
  refine ⟨?_, ?_, ?_⟩
  · interval_cases angle <;> decide
  · interval_cases angle <;> decide
  · intro o d
    rw [paletteOrder, List.append_assoc, List.take_append_of_le_length (by decide)]
    rfl

/-- Witness for C2 at angle 3. -/
theorem claim_C2_palette_rotation_witness :
    ((3 : Nat) ≤ 7) ∧ paletteOrder 16 3 = [0, 1, 2, 3] ++ rotL 3 (pyRangeAB 4 16) :=
  ⟨by decide, (claim_C2_palette_rotation 3 (by decide)).1⟩

/-- C3: from any offset in [0, 8) and any integer delta (negative
included), the main loop's offset update `(16 + angle + d) & 7` returns
a value in [0, 8): the offset wraps and never grows unbounded. -/
theorem claim_C3_offset_bounded (o d : Int) (h1 : 0 ≤ o) (h2 : o < 8) :
    0 ≤ rotateUpdate o d ∧ rotateUpdate o d < 8 :=
  ⟨rotateUpdate_nonneg o d, rotateUpdate_lt o d⟩

/-- Witness for C3 at offset 3, delta -5. -/
theorem claim_C3_offset_bounded_witness :
    (0 ≤ (3 : Int)) ∧ ((3 : Int) < 8) ∧
      (0 ≤ rotateUpdate 3 (-5) ∧ rotateUpdate 3 (-5) < 8) :=
  ⟨by decide, by decide, claim_C3_offset_bounded 3 (-5) (by decide) (by decide)⟩

/-- C4 (counterexample): the update is not
`(currentOffset + delta + bias) mod K` with bias half of `K = 8`
(i.e. 4): at offset 0 and delta 0 the code computes 0 while that formula
gives 4. -/
theorem claim_C4_cex : rotateUpdate 0 0 ≠ ((0 : Int) + 0 + 4) % 8 := by decide

/-- C4 (amended): the update computes
`newOffset = (currentOffset + delta + bias) mod K` with `K = 8` and the
fixed positive bias `16` — twice `K`, hence congruent to 0 mod `K`, not
half of `K` — added before the modulo, and the result is a valid
non-negative index regardless of the sign of delta. -/
theorem claim_C4_bias_formula (o d : Int) :
    rotateUpdate o d = (o + d + 16) % 8 ∧
      0 ≤ rotateUpdate o d ∧ rotateUpdate o d < 8 :=
  ⟨rotateUpdate_eq o d, rotateUpdate_nonneg o d, rotateUpdate_lt o d⟩

/-- C5: the offset update is a group action under the modulus 8:
updating by `d1` then `d2` equals one update by `d1 + d2`. -/
theorem claim_C5_group_action (o d1 d2 : Int) (h1 : 0 ≤ o) (h2 : o < 8) :
    rotateUpdate (rotateUpdate o d1) d2 = rotateUpdate o (d1 + d2) := by
  rw [rotateUpdate_eq, rotateUpdate_eq, rotateUpdate_eq]
  omega

/-- Witness for C5 at offset 0, deltas +1 and +1, plus the spec scenario
`[+1, +1, -2]` returning to offset 0. -/
theorem claim_C5_group_action_witness :
    (0 ≤ (0 : Int)) ∧ ((0 : Int) < 8) ∧
      rotateUpdate (rotateUpdate 0 1) 1 = rotateUpdate 0 (1 + 1) ∧
      rotateUpdate (rotateUpdate (rotateUpdate 0 1) 1) (-2) = 0 :=
  ⟨by decide, by decide, claim_C5_group_action 0 1 1 (by decide) (by decide), by decide⟩

/-- C6: on any trace made of press-and-release cycles (no encoder
motion), the click branch fires exactly once per cycle, on the first
pressed tick: that tick sends one frame, and held or released ticks send
nothing. -/
theorem claim_C6_click_edge (buf pal : List Nat) (cycles : List (Nat × Nat))
    (h : ∀ p ∈ cycles, 1 ≤ p.1 ∧ 1 ≤ p.2) :
    (runLoop (initState buf pal)
        ((pressTrace cycles).map (fun c => (c, (0 : Int))))).2 =
      (cycles.map
        (fun p => [("FRAME", buf)] :: List.replicate (p.1 - 1 + p.2) [])).flatten := by
  rw [runLoop_cycles cycles (initState buf pal) rfl h]
  rfl

/-- Witness for C6: held three ticks then released produces exactly one
click send, on the first tick. -/
theorem claim_C6_click_edge_witness :
    (∀ p ∈ [((3 : Nat), (1 : Nat))], 1 ≤ p.1 ∧ 1 ≤ p.2) ∧
    (runLoop (initState [9] [])
        ((pressTrace [(3, 1)]).map (fun c => (c, (0 : Int))))).2 =
      [[("FRAME", [9])], [], [], []] := by
  refine ⟨by decide, ?_⟩
  rw [claim_C6_click_edge [9] [] [(3, 1)] (by decide)]
  rfl

/-- C7: for a non-empty buffer, the block written by `send` is the
begin-marker line `-----BEGIN <TAG>-----` preceded by a blank line, one
base64 line (with its own trailing newline) per 60-byte chunk — the
chunking is exactly successive 60-byte slices, the last possibly
shorter, none empty, concatenating back to the buffer — then the
end-marker line; and every block the program emits is tagged FRAME or
PALETTE. -/
theorem claim_C7_block_format (buf pal : List Nat) (tag : String)
    (inputs : List (Bool × Int)) (h : buf ≠ []) :
    (sendWrites buf tag).1 =
      ("\n-----BEGIN " ++ tag ++ "-----\n") ::
        (sendChunks buf).map (fun ch => String.mk (b64encode ch ++ ['\n'])) ++
        ["-----END " ++ tag ++ "-----\n"] ∧
    sendChunks buf = chunks60 buf ∧
    (∀ ch ∈ sendChunks buf, ch ≠ [] ∧ ch.length ≤ 60) ∧
    (sendChunks buf).flatten = buf ∧
    (∀ e ∈ programEmits buf pal inputs, e.1 = "FRAME" ∨ e.1 = "PALETTE") := by
  refine ⟨?_, sendChunks_eq_chunks60 buf, ?_, ?_, ?_⟩
  · rw [sendWrites_eq buf tag h]
    unfold sendChunkLines
    rw [List.map_map]
    rfl
  · rw [sendChunks_eq_chunks60]
    exact chunks60_shape buf
  · rw [sendChunks_eq_chunks60]
    exact chunks60_flatten buf
  · intro e he
    rcases List.mem_append.mp he with hs | hl
    · rcases List.mem_cons.mp hs with rfl | hs
      · exact Or.inr rfl
      · rcases List.mem_cons.mp hs with rfl | hs
        · exact Or.inl rfl
        · simp at hs
    · rcases runLoop_emits inputs (initState buf pal) e hl with hfr | hpal
      · exact Or.inl hfr.1
      · exact Or.inr hpal

/-- Witness for C7 at the one-byte buffer `[5]` with tag PALETTE. -/
theorem claim_C7_block_format_witness :
    (([5] : List Nat) ≠ []) ∧
    (sendWrites [5] "PALETTE").1 =
      ["\n-----BEGIN PALETTE-----\n", "BQ==\n", "-----END PALETTE-----\n"] := by
  refine ⟨by decide, ?_⟩
  rw [(claim_C7_block_format [5] [] "PALETTE" [] (by decide)).1]
  rfl

/-- C8: the program starts with offset 0 and `prevClick` false, performs
exactly one unconditional palette send followed by one frame send before
any event-loop emission, and the angle-0 palette payload serializes the
palette in its original, unrotated order. -/
theorem claim_C8_startup (buf pal : List Nat) (inputs : List (Bool × Int))
    (h : pal.length = 16) :
    (initState buf pal).angle = 0 ∧ (initState buf pal).prevClick = false ∧
    programEmits buf pal inputs =
      ("PALETTE", paletteData pal 0) :: ("FRAME", buf) ::
        (runLoop (initState buf pal) inputs).2.flatten ∧
    paletteData pal 0 = (pal.map rgb3).flatten :=
  ⟨rfl, rfl, rfl, paletteData_zero pal h⟩

/-- Witness for C8 at a concrete 16-color palette. -/
theorem claim_C8_startup_witness :
    ((List.replicate 16 (255 : Nat)).length = 16) ∧
    paletteData (List.replicate 16 255) 0 =
      ((List.replicate 16 (255 : Nat)).map rgb3).flatten :=
  ⟨by decide, (claim_C8_startup [7] (List.replicate 16 255) [] (by decide)).2.2.2⟩

/-- C9: the frame buffer painted at startup is never mutated by click or
rotate handling: after any input trace the loop state's buffer equals
the initial one, and every FRAME block the program emits carries exactly
the initial buffer bytes. -/
theorem claim_C9_frame_immutable (buf pal : List Nat) (inputs : List (Bool × Int)) :
    (runLoop (initState buf pal) inputs).1.buf = buf ∧
    ∀ e ∈ programEmits buf pal inputs, e.1 = "FRAME" → e.2 = buf := by
  refine ⟨(runLoop_buf inputs (initState buf pal)).1, ?_⟩
  intro e he htag
  rcases List.mem_append.mp he with hs | hl
  · rcases List.mem_cons.mp hs with rfl | hs
    · simp at htag
    · rcases List.mem_cons.mp hs with rfl | hs
      · rfl
      · simp at hs
  · rcases runLoop_emits inputs (initState buf pal) e hl with hfr | hpal
    · exact hfr.2
    · rw [hpal] at htag
      exact absurd htag (by decide)

/-- C10: `send` completes and emits a block for every non-empty buffer,
but on the empty buffer it fails (the chunking loop never runs, leaving
`i` unbound) after writing the begin marker and before the end marker,
so no empty-payload block with matching markers is ever produced. -/
theorem claim_C10_empty_buffer (buf : List Nat) (tag : String) :
    (buf ≠ [] → (sendWrites buf tag).2 = true) ∧
    (sendWrites [] tag).2 = false ∧
    (sendWrites [] tag).1 = ["\n-----BEGIN " ++ tag ++ "-----\n"] := by
  refine ⟨fun h => ?_, rfl, rfl⟩
  rw [sendWrites_eq buf tag h]

/-- Witness for C10 at the buffers `[0]` and `[]`. -/
theorem claim_C10_empty_buffer_witness :
    (sendWrites [0] "FRAME").2 = true ∧ (sendWrites [] "FRAME").2 = false :=
  ⟨(claim_C10_empty_buffer [0] "FRAME").1 (by decide),
    (claim_C10_empty_buffer [0] "FRAME").2.1⟩

end Boing
